import Mathlib

/-!
Verification of the character-input layer of a C compiler front end
(`src/file.c`). The layer maintains a stack of input units (each backed by
a `FILE *` stream or by a NUL-terminated string), normalizes carriage
returns, splices backslash-newline pairs, regularizes a missing final
newline before EOF, tracks line/column positions, and provides a bounded
pushback buffer.

Embedding conventions:
- characters are `Int` values (the C `int` read channel); `EOF` is `-1`;
- a `FILE *` stream is the list of character codes not yet consumed
  (`getc` yields the head or `EOF`; `ungetc` pushes a character back);
- a string source is the list of character codes before the terminating
  NUL; a `0` inside the list is the C NUL terminator and ends the input;
- the source stack is a `List File` whose head is the top unit
  (`vec_tail` in the C code);
- the C assertion in `unreadc` is modelled by an `Option` result:
  `none` is the assertion failure;
- `readc`'s unbounded loop takes an explicit fuel argument and returns
  `none` when the fuel runs out (or when the stack is empty, which is the
  `vec_tail` precondition violation in C).
-/

namespace CFile

/-- The C `EOF` sentinel. -/
def EOF : Int := -1

/-- Modelled from the spec: the `File` struct lives in a header that is
not part of the sources here; the spec says the pushback buffer has a
"small and fixed" capacity.  We fix that capacity as a constant (the
upstream header declares a 3-element array). -/
def BUFCAP : Nat := 3

/-- One input unit (`File` in `src/file.c`).  `file = some s` is a unit
backed by a `FILE *` whose unconsumed characters are `s`; `file = none`
is a string-backed unit whose remaining content (up to the NUL) is `p`.
`buf` is the pushback stack, most recently unread character first
(`buf[buflen-1]` in C is our head). -/
structure File where
  file : Option (List Int)
  p : List Int
  name : String
  line : Int
  column : Int
  last : Int
  buf : List Int
  autopop : Bool
deriving Repr, DecidableEq

/-- `make_file` in `src/file.c`: `calloc` zeroes every field, then the
stream, name, `line = 1` and the autopop flag are set. -/
def make_file (stream : List Int) (name : String) (autopop : Bool) : File :=
  { file := some stream, p := [], name := name, line := 1, column := 0,
    last := 0, buf := [], autopop := autopop }

/-- `make_file_string` in `src/file.c`.  The C code leaves `name` as the
`calloc`-produced null pointer; we model it as the empty string (no claim
rests on the name of a string-backed unit). -/
def make_file_string (s : List Int) (autopop : Bool) : File :=
  { file := none, p := s, name := "", line := 1, column := 0,
    last := 0, buf := [], autopop := autopop }

/-- `getc` on a modelled `FILE *`: head of the unconsumed list, or `EOF`. -/
def getcList : List Int → Int × List Int
  | [] => (EOF, [])
  | c :: rest => (c, rest)

/-- `ungetc` on a modelled `FILE *`: pushes a character back; `ungetc`
of `EOF` is a no-op, as in stdio. -/
def ungetcList (c : Int) (s : List Int) : List Int :=
  if c < 0 then s else c :: s

/-- `readc_file` in `src/file.c`: read one character from the `FILE *`
stream, turning `EOF` into a synthetic newline unless the last delivered
character was a newline or `EOF`, and collapsing `\r\n` and lone `\r`
into `\n`; records the result in `last`. -/
def readc_file (f : File) : Int × File :=
  let s := f.file.getD []
  let (c, s₁) := getcList s
  if c = EOF then
    let c' := if f.last = 10 ∨ f.last = EOF then EOF else 10
    (c', { f with file := some s₁, last := c' })
  else if c = 13 then
    let (c2, s₂) := getcList s₁
    let s₃ := if c2 ≠ 10 then ungetcList c2 s₂ else s₂
    (10, { f with file := some s₃, last := 10 })
  else
    (c, { f with file := some s₁, last := c })

/-- The `if (*f->p == '\n') f->p++;` step of `readc_string`: after the
cursor passed a `\r`, a directly following `\n` is consumed as well. -/
def stripLF (s : List Int) : List Int :=
  match s with
  | [] => []
  | c :: r => if c = 10 then r else s

/-- `readc_string` in `src/file.c`: same normalization over the string
cursor; the end of the list plays the role of the terminating NUL, and a
literal `0` in the list is the NUL itself (the cursor stops there). -/
def readc_string (f : File) : Int × File :=
  match f.p with
  | [] =>
    let c := if f.last = 10 ∨ f.last = EOF then EOF else 10
    (c, { f with last := c })
  | c0 :: rest =>
    if c0 = 0 then
      let c := if f.last = 10 ∨ f.last = EOF then EOF else 10
      (c, { f with last := c })
    else if c0 = 13 then
      (10, { f with p := stripLF rest, last := 10 })
    else
      (c0, { f with p := rest, last := c0 })

/-- The line/column update at the end of `get` in `src/file.c`: a
newline moves to the next line and resets the column, anything else
(including `EOF`) advances the column. -/
def getPos (c : Int) (f : File) : File :=
  if c = 10 then { f with line := f.line + 1, column := 0 }
  else { f with column := f.column + 1 }

/-- Modelled character source of `get` in `src/file.c` before the
position update: pop the pushback buffer if non-empty, otherwise read
from the `FILE *` stream or the string. -/
def getRaw (f : File) : Int × File :=
  match f.buf with
  | b :: rest => (b, { f with buf := rest })
  | [] =>
    match f.file with
    | some _ => readc_file f
    | none => readc_string f

/-- `get` in `src/file.c`, acting on the top unit: raw read (pushback,
file or string) followed by the line/column update. -/
def get (f : File) : Int × File :=
  let (c, f₁) := getRaw f
  (c, getPos c f₁)

/-- `unreadc` in `src/file.c`: negative characters are silently ignored;
otherwise the character is pushed onto the pushback buffer and the
line/column update is inverted.  The C `assert(f->buflen < capacity)` is
modelled by returning `none` when the buffer is full. -/
def unreadc (c : Int) (f : File) : Option File :=
  if c < 0 then some f
  else if f.buf.length < BUFCAP then
    if c = 10 then
      some { f with buf := c :: f.buf, column := 0, line := f.line - 1 }
    else
      some { f with buf := c :: f.buf, column := f.column - 1 }
  else none

/-- `readc` in `src/file.c`: the splice/EOF loop over the stack, with
explicit fuel for the unbounded `for (;;)`.  `none` means the fuel ran
out, the stack was empty (`vec_tail` precondition), or the internal
`unreadc` assertion fired. -/
def readc : Nat → List File → Option (Int × List File)
  | 0, _ => none
  | _ + 1, [] => none
  | fuel + 1, f :: fs =>
    match get f with
    | (c, f₁) =>
      if c = EOF then
        if f₁.autopop then readc fuel fs
        else some (c, f₁ :: fs)
      else if c ≠ 92 then some (c, f₁ :: fs)
      else
        match get f₁ with
        | (c2, f₂) =>
          if c2 = 10 then readc fuel (f₂ :: fs)
          else
            match unreadc c2 f₂ with
            | some f₃ => some (c, f₃ :: fs)
            | none => none

/-- `current_file` in `src/file.c` (`vec_tail`; `none` on an empty
stack, where the C call would assert). -/
def current_file (st : List File) : Option File := st.head?

/-- `insert_stream` in `src/file.c`: push a file-backed unit with
`autopop = true`. -/
def insert_stream (stream : List Int) (name : String) (st : List File) :
    List File :=
  make_file stream name true :: st

/-- `push_stream` in `src/file.c`: push a file-backed unit with
`autopop = false`. -/
def push_stream (stream : List Int) (name : String) (st : List File) :
    List File :=
  make_file stream name false :: st

/-- `push_stream_string` in `src/file.c`: push a string-backed unit with
`autopop = false`. -/
def push_stream_string (s : List Int) (st : List File) : List File :=
  make_file_string s false :: st

/-- `pop_stream` in `src/file.c` (`vec_pop`). -/
def pop_stream (st : List File) : List File := st.tail

/-- `stream_depth` in `src/file.c` (`vec_len`). -/
def stream_depth (st : List File) : Nat := st.length

/-- `input_position` in `src/file.c`: the fixed `"(unknown)"` sentinel
on an empty stack, otherwise `format("%s:%d:%d", name, line, column)` on
the top unit. -/
def input_position (st : List File) : String :=
  match st with
  | [] => "(unknown)"
  | f :: _ =>
    f.name ++ ":" ++ toString f.line ++ ":" ++ toString f.column

/-- Driver: perform `n` calls to `readc` (each with the given fuel) and
collect the results, `EOF` included. -/
def readMany (fuel : Nat) : Nat → List File → Option (List Int × List File)
  | 0, st => some ([], st)
  | n + 1, st =>
    match readc fuel st with
    | none => none
    | some (c, st') =>
      match readMany fuel n st' with
      | none => none
      | some (cs, st'') => some (c :: cs, st'')

/-- Driver: `unreadc` the characters `c₁ … cₙ` in reverse order
(`unreadc cₙ` first, `unreadc c₁` last), as in the round-trip property. -/
def unreadSeq : List Int → File → Option File
  | [], f => some f
  | c :: cs, f =>
    match unreadSeq cs f with
    | none => none
    | some f₁ => unreadc c f₁

/-- Driver: read a string-backed unit via `readc_string` alone until it
reports `EOF`, collecting the delivered characters (fuel-bounded). -/
def readStringAll : Nat → File → List Int
  | 0, _ => []
  | fuel + 1, f =>
    match readc_string f with
    | (c, f') => if c = EOF then [] else c :: readStringAll fuel f'

/-- Driver for the round-trip scenarios: read `n` characters, unread
them in reverse order, and report the characters read, the position
after the unreads, and the characters delivered by re-reading. -/
def rereadAfterUnread (fuel n : Nat) (st : List File) :
    Option (List Int × String × Option (List Int)) :=
  match readMany fuel n st with
  | none => none
  | some (cs, st₂) =>
    match st₂ with
    | [] => none
    | f :: fs =>
      match unreadSeq cs f with
      | none => none
      | some f' =>
        some (cs, input_position (f' :: fs),
          (readMany fuel n (f' :: fs)).map Prod.fst)

/-- Closed form of the character sequence delivered by `readc_string`
from a given remaining content and `last` value, up to (and excluding)
the first `EOF`. -/
def stringOut : List Int → Int → List Int
  | [], l => if l = 10 ∨ l = EOF then [] else [10]
  | c :: rest, l =>
    if c = 0 then (if l = 10 ∨ l = EOF then [] else [10])
    else if c = 13 then 10 :: stringOut (stripLF rest) 10
    else c :: stringOut rest c
termination_by s _ => s.length
decreasing_by
  · have h : (stripLF rest).length ≤ rest.length := by
      cases rest with
      | nil => simp [stripLF]
      | cons a r =>
        simp only [stripLF]
        split <;> simp
    simp; omega
  · simp

/-- Modelled from the spec: the reference oracle that pre-substitutes
every `\r\n` pair and every remaining lone `\r` by `\n` (a `\r` followed
by `\n` loses the `\n`, and either form is replaced by a single `\n`). -/
def crlfSubst : List Int → List Int
  | [] => []
  | c :: rest =>
    if c = 13 then 10 :: crlfSubst (stripLF rest)
    else c :: crlfSubst rest
termination_by s => s.length
decreasing_by
  · have h : (stripLF rest).length ≤ rest.length := by
      cases rest with
      | nil => simp [stripLF]
      | cons a r =>
        simp only [stripLF]
        split <;> simp
    simp; omega
  · simp

/-- A string-backed non-autopop unit with empty pushback in a general
mid-read state: remaining content `s`, position `line`/`col`, and last
delivered character `l`. -/
def strUnit (s : List Int) (name : String) (line col l : Int) : File :=
  { file := none, p := s, name := name, line := line, column := col,
    last := l, buf := [], autopop := false }

/-- Concrete scenario for the round-trip claim: a file-backed unit over
the content `"a\nb"`. -/
def cex1 : List File := push_stream [97, 10, 98] "t" []

/-- Concrete scenario for the round-trip claim: a file-backed unit over
the content `"\\\\\n\n"` (backslash, backslash, newline, newline). -/
def cex2 : List File := push_stream [92, 92, 10, 10] "u" []

/-- A string-backed non-autopop unit that has delivered a final newline
and is exhausted: its next raw read reports `EOF`. -/
def exD : File :=
  { file := none, p := [], name := "t", line := 2, column := 0,
    last := 10, buf := [], autopop := false }

/-- The state of `exD` after one `EOF`-delivering `get`. -/
def exD₁ : File :=
  { file := none, p := [], name := "t", line := 2, column := 1,
    last := EOF, buf := [], autopop := false }

/-- The state of `exD` after two `EOF`-delivering `get`s. -/
def exD₂ : File :=
  { file := none, p := [], name := "t", line := 2, column := 2,
    last := EOF, buf := [], autopop := false }

/-- An exhausted file-backed unit pushed with `insert_stream` semantics
(`autopop = true`): it has delivered its final newline and its next raw
read reports `EOF`. -/
def exB : File :=
  { file := some [], p := [], name := "inc", line := 2, column := 0,
    last := 10, buf := [], autopop := true }

/-- A string-backed unit over `"x\n"`, the resumed outer input. -/
def exA : File := make_file_string [120, 10] false

/-- A unit whose pushback buffer is full (`BUFCAP` entries). -/
def exFull : File := { exD with buf := [65, 66, 67] }

/-!  Frame lemmas about the raw character source. -/

/-- The raw read (`pushback`, `FILE *` or string) never changes the
line, column, name or autopop flag of the unit; only `get`'s final
position update does. -/
theorem getRaw_frame (f : File) :
    (getRaw f).2.column = f.column ∧ (getRaw f).2.line = f.line ∧
    (getRaw f).2.name = f.name ∧ (getRaw f).2.autopop = f.autopop := by
  obtain ⟨file, p, name, line, column, last, buf, autopop⟩ := f
  rcases buf with _ | ⟨b, r⟩
  · rcases file with _ | s
    · rcases p with _ | ⟨c0, pr⟩
      · simp [getRaw, readc_string]
      · by_cases h0 : c0 = 0
        · simp [getRaw, readc_string, h0]
        · by_cases h13 : c0 = 13 <;> simp [getRaw, readc_string, h0, h13]
    · rcases s with _ | ⟨c, s₁⟩
      · simp [getRaw, readc_file, getcList]
      · rcases h2 : getcList s₁ with ⟨c2, s₂⟩
        simp only [getRaw, readc_file, getcList, h2]
        split_ifs <;> simp
  · simp [getRaw]

/-- If `get` delivers `EOF`, the resulting unit has the column advanced
by one (the `EOF` takes the non-newline branch of the position update)
and the line, name and autopop flag unchanged. -/
theorem get_eof_frame (f f₁ : File) (h : get f = (EOF, f₁)) :
    f₁.column = f.column + 1 ∧ f₁.line = f.line ∧ f₁.name = f.name ∧
    f₁.autopop = f.autopop := by
  have hraw := getRaw_frame f
  rcases hg : getRaw f with ⟨c, g⟩
  rw [hg] at hraw
  unfold get at h
  rw [hg] at h
  simp only [Prod.mk.injEq] at h
  obtain ⟨hc, hf₁⟩ := h
  subst hc
  rw [← hf₁]
  simp only [getPos, EOF]
  norm_num
  exact ⟨hraw.1, hraw.2.1, hraw.2.2.1, hraw.2.2.2⟩

/-- C8: `input_position` on an empty source stack returns the fixed
`"(unknown)"` sentinel rather than failing, and on a non-empty stack it
returns the top unit's name, line and column formatted as
`"<name>:<line>:<column>"`. -/
theorem spec_C8 :
    input_position [] = "(unknown)" ∧
    ∀ (f : File) (fs : List File),
      input_position (f :: fs) =
        f.name ++ ":" ++ toString f.line ++ ":" ++ toString f.column :=
  ⟨rfl, fun _ _ => rfl⟩

/-- C7: `unreadc` of any negative character (including the `EOF`
sentinel) is a pure no-op: it succeeds and leaves the unit — pushback
buffer, line, column, `last` — and hence the stack exactly unchanged. -/
theorem spec_C7 (c : Int) (f : File) (h : c < 0) : unreadc c f = some f := by
  unfold unreadc
  rw [if_pos h]

/-- Witness for C7 at `c = EOF = -1`. -/
theorem spec_C7_witness :
    (-1 : Int) < 0 ∧ unreadc (-1) exD = some exD :=
  ⟨by decide, spec_C7 (-1) exD (by decide)⟩

/-- C6: with a non-negative character and a pushback count strictly
below the fixed capacity, `unreadc` succeeds, stores the character at
the top of the pushback buffer (which stays within capacity) and grows
the count by exactly one; with a full buffer it is the assertion
failure (`none`), never a silent out-of-bounds write. -/
theorem spec_C6 (c : Int) (f : File) (h : 0 ≤ c) :
    (f.buf.length < BUFCAP →
      ∃ f', unreadc c f = some f' ∧ f'.buf = c :: f.buf ∧
        f'.buf.length = f.buf.length + 1 ∧ f'.buf.length ≤ BUFCAP) ∧
    (BUFCAP ≤ f.buf.length → unreadc c f = none) := by
  constructor
  · intro hlt
    unfold unreadc
    rw [if_neg (by omega), if_pos hlt]
    by_cases hc : c = 10
    · rw [if_pos hc]
      exact ⟨_, rfl, rfl, by simp, by simp; omega⟩
    · rw [if_neg hc]
      exact ⟨_, rfl, rfl, by simp, by simp; omega⟩
  · intro hge
    unfold unreadc
    rw [if_neg (by omega), if_neg (by omega)]

/-- Witness for C6: pushing onto an empty buffer succeeds; pushing onto
a full buffer is the assertion failure. -/
theorem spec_C6_witness :
    (0 : Int) ≤ 97 ∧ exD.buf.length < BUFCAP ∧ BUFCAP ≤ exFull.buf.length ∧
    (∃ f', unreadc 97 exD = some f' ∧ f'.buf = 97 :: exD.buf ∧
        f'.buf.length = exD.buf.length + 1 ∧ f'.buf.length ≤ BUFCAP) ∧
    unreadc 97 exFull = none :=
  ⟨by decide, by decide, by decide,
   (spec_C6 97 exD (by decide)).1 (by decide),
   (spec_C6 97 exFull (by decide)).2 (by decide)⟩

/-- C5: reading the string `"a\\\n\\\nb\n"` (a, backslash, newline,
backslash, newline, b, newline) through a string-backed unit yields
exactly `'a'`, `'b'`, `'\n'` and then `EOF`: each backslash-newline pair
is spliced away and the splice is reprocessed, so consecutive splices
collapse. -/
theorem spec_C5 :
    (readMany 6 4 (push_stream_string [97, 92, 10, 92, 10, 98, 10] [])).map
        Prod.fst
      = some [97, 98, 10, EOF] := by decide

/-- C9: a `get` that delivers `EOF` takes the non-newline branch of the
position update, so the unit's column is incremented (line and name are
unchanged), and for a non-autopop top unit `readc` surfaces that `EOF`
with the incremented column on the stack; applying this to the new state
increments the column again on each further `EOF` read. -/
theorem spec_C9 (f f₁ : File) (fs : List File) (fuel : Nat)
    (hget : get f = (EOF, f₁)) (hpop : f.autopop = false) :
    readc (fuel + 1) (f :: fs) = some (EOF, f₁ :: fs) ∧
    f₁.column = f.column + 1 ∧ f₁.line = f.line ∧ f₁.name = f.name := by
  have hfr := get_eof_frame f f₁ hget
  have hpop₁ : f₁.autopop = false := by rw [hfr.2.2.2]; exact hpop
  refine ⟨?_, hfr.1, hfr.2.1, hfr.2.2.1⟩
  simp only [readc, hget]
  simp [hpop₁]

/-- Witness for C9: two successive `EOF`-returning reads each increment
the column, and the position string changes across the first one. -/
theorem spec_C9_witness :
    get exD = (EOF, exD₁) ∧ exD.autopop = false ∧
    readc 1 [exD] = some (EOF, [exD₁]) ∧
    exD₁.column = exD.column + 1 ∧
    input_position [exD₁] ≠ input_position [exD] ∧
    readc 1 [exD₁] = some (EOF, [exD₂]) ∧
    exD₂.column = exD₁.column + 1 :=
  ⟨rfl, rfl, (spec_C9 exD exD₁ [] 0 rfl rfl).1,
   (spec_C9 exD exD₁ [] 0 rfl rfl).2.1,
   by decide,
   (spec_C9 exD₁ exD₂ [] 0 rfl rfl).1,
   (spec_C9 exD₁ exD₂ [] 0 rfl rfl).2.1⟩

/-- C4: when the top unit was pushed with `auto_pop = true` and its raw
read reports `EOF`, `readc` pops it and continues with the rest of the
stack, so the next read is answered by the unit below (its next
character, or its own regularized `EOF` result); the inner unit's `EOF`
is never surfaced to the caller. -/
theorem spec_C4 (B : File) (fs : List File) (fuel : Nat)
    (hpop : B.autopop = true) (heof : (get B).1 = EOF) :
    readc (fuel + 1) (B :: fs) = readc fuel fs ∧
    ∀ c st', readc fuel fs = some (c, st') →
      readc (fuel + 1) (B :: fs) = some (c, st') := by
  have h1 : readc (fuel + 1) (B :: fs) = readc fuel fs := by
    rcases hg : get B with ⟨c, B₁⟩
    have hc : c = EOF := by rw [hg] at heof; exact heof
    subst hc
    have hB₁ : B₁.autopop = true := by
      have hfr := get_eof_frame B B₁ hg
      rw [hfr.2.2.2, hpop]
    simp only [readc, hg]
    simp [hB₁]
  exact ⟨h1, fun c st' h => h1 ▸ h⟩

/-- Witness for C4: an exhausted autopop unit `exB` on top of a
string-backed unit `exA` over `"x\n"`; the read after `exB`'s content
is consumed returns `'x'`, not `EOF`. -/
theorem spec_C4_witness :
    exB.autopop = true ∧ (get exB).1 = EOF ∧
    readc 2 [exB, exA] = readc 1 [exA] ∧
    (readc 2 [exB, exA]).map Prod.fst = some 120 :=
  ⟨rfl, rfl, (spec_C4 exB [exA] 1 rfl rfl).1, by
    rw [(spec_C4 exB [exA] 1 rfl rfl).1]; decide⟩

/-- C1 is false as stated: two concrete runs violate it.  Over the
file-backed content `"a\nb"` (unit name `t`), reading `'a'` then
`'\n'` and unreading them restores the characters on re-read but drives
the position to `t:1:-1`, not the original `t:1:0` (unreading the
newline pins column to 0, and the further unread decrements it).  Over
the content `"\\\\\n\n"` (unit name `u`), the two reads deliver
`'\\'`, `'\n'`; after unreading them both, the re-read splices the
pushed-back backslash-newline pair and delivers `EOF, EOF` instead of
the original characters.  Both runs stay within the pushback capacity. -/
theorem spec_C1_counterexample :
    2 ≤ BUFCAP ∧
    input_position cex1 = "t:1:0" ∧
    rereadAfterUnread 3 2 cex1 = some ([97, 10], "t:1:-1", some [97, 10]) ∧
    ("t:1:-1" : String) ≠ "t:1:0" ∧
    rereadAfterUnread 6 2 cex2 = some ([92, 10], "u:2:-1", some [EOF, EOF]) ∧
    ([92, 10] : List Int) ≠ [EOF, EOF] := by decide

/-- A `readc` whose top unit has a non-negative, non-backslash character
on top of its pushback buffer returns that character immediately and
only pops it (plus the position update). -/
theorem readc_pushback (f : File) (fs : List File) (c : Int)
    (rest : List Int) (hb : f.buf = c :: rest) (hc : 0 ≤ c) (h92 : c ≠ 92)
    (fuel : Nat) :
    readc (fuel + 1) (f :: fs) =
      some (c, getPos c { f with buf := rest } :: fs) := by
  have hget : get f = (c, getPos c { f with buf := rest }) := by
    unfold get getRaw
    rw [hb]
  simp only [readc, hget]
  have hcE : ¬(c = EOF) := by unfold EOF; omega
  simp [hcE, h92]

/-- Reading `n` times from a unit whose pushback buffer starts with the
`n` non-negative, non-backslash characters `cs` delivers exactly `cs`. -/
theorem readMany_pushback (cs : List Int) (f : File) (fs : List File)
    (rest : List Int) (hb : f.buf = cs ++ rest)
    (hcs : ∀ c ∈ cs, 0 ≤ c ∧ c ≠ 92) :
    (readMany 1 cs.length (f :: fs)).map Prod.fst = some cs := by
  induction cs generalizing f with
  | nil => simp [readMany]
  | cons c cs ih =>
    obtain ⟨hc, h92⟩ := hcs c (List.mem_cons_self c cs)
    have h1 : readc 1 (f :: fs) =
        some (c, getPos c { f with buf := cs ++ rest } :: fs) :=
      readc_pushback f fs c (cs ++ rest) (by simpa using hb) hc h92 0
    have hbuf' : (getPos c { f with buf := cs ++ rest }).buf = cs ++ rest := by
      unfold getPos; split <;> rfl
    have ih' := ih (getPos c { f with buf := cs ++ rest }) hbuf'
      (fun x hx => hcs x (List.mem_cons_of_mem c hx))
    obtain ⟨⟨cs', st''⟩, hEq, hfst⟩ := Option.map_eq_some'.mp ih'
    simp only at hfst
    subst hfst
    simp only [List.length_cons, readMany, h1, hEq]
    simp

/-- Unreading the characters `cs` in reverse order onto a unit with
enough spare pushback capacity succeeds, leaves `cs` on top of the
pushback buffer, preserves the name and autopop flag, and — when no
character in `cs` is a newline — keeps the line and lowers the column by
exactly `cs.length`. -/
theorem unreadSeq_ok (cs : List Int) (f : File)
    (hcs : ∀ c ∈ cs, 0 ≤ c) (hcap : cs.length + f.buf.length ≤ BUFCAP) :
    ∃ f', unreadSeq cs f = some f' ∧
      f'.buf = cs ++ f.buf ∧ f'.name = f.name ∧ f'.autopop = f.autopop ∧
      ((∀ c ∈ cs, c ≠ 10) →
        f'.line = f.line ∧ f'.column = f.column - cs.length) := by
  induction cs with
  | nil =>
    exact ⟨f, rfl, by simp, rfl, rfl, fun _ => ⟨rfl, by simp⟩⟩
  | cons c cs ih =>
    obtain ⟨f₁, hseq, hbuf, hname, hpop, hpos⟩ :=
      ih (fun x hx => hcs x (List.mem_cons_of_mem c hx))
        (by simp only [List.length_cons] at hcap; omega)
    have hc : 0 ≤ c := hcs c (List.mem_cons_self c cs)
    have hlen : f₁.buf.length < BUFCAP := by
      rw [hbuf]
      simp only [List.length_append]
      simp only [List.length_cons] at hcap
      omega
    by_cases hc10 : c = 10
    · refine ⟨{ f₁ with buf := c :: f₁.buf, column := 0, line := f₁.line - 1 }, ?_, ?_, hname, hpop, ?_⟩
      · simp only [unreadSeq, hseq]
        unfold unreadc
        rw [if_neg (by omega), if_pos hlen, if_pos hc10]
      · simp [hbuf]
      · intro hno10
        exact absurd hc10 (hno10 c (List.mem_cons_self c cs))
    · refine ⟨{ f₁ with buf := c :: f₁.buf, column := f₁.column - 1 }, ?_, ?_, hname, hpop, ?_⟩
      · simp only [unreadSeq, hseq]
        unfold unreadc
        rw [if_neg (by omega), if_pos hlen, if_neg hc10]
      · simp [hbuf]
      · intro hno10
        obtain ⟨hl, hcol⟩ := hpos (fun x hx => hno10 x (List.mem_cons_of_mem c hx))
        refine ⟨hl, ?_⟩
        show f₁.column - 1 = f.column - ((c :: cs).length : Int)
        rw [hcol]
        simp only [List.length_cons]
        push_cast
        ring

/-- C1 (amended): for characters `c₁ … cₙ` that are non-negative and
contain no backslash, with `n` plus the current pushback count within
capacity, calling `unread(cₙ) … unread(c₁)` succeeds and the next `n`
`read()` calls reproduce exactly `c₁ … cₙ`; moreover, when no `cᵢ` is a
newline, the unreads leave the top unit's line unchanged and lower its
column by exactly `n` — so the `position()` string is restored precisely
when the original reads had advanced the column by `n` on one line, and
not in general. -/
theorem spec_C1_amended (cs : List Int) (f : File) (fs : List File)
    (hval : ∀ c ∈ cs, 0 ≤ c ∧ c ≠ 92)
    (hcap : cs.length + f.buf.length ≤ BUFCAP) :
    ∃ f', unreadSeq cs f = some f' ∧
      (readMany 1 cs.length (f' :: fs)).map Prod.fst = some cs ∧
      ((∀ c ∈ cs, c ≠ 10) →
        f'.line = f.line ∧ f'.column = f.column - cs.length) := by
  obtain ⟨f', h1, hbuf, _, _, hpos⟩ :=
    unreadSeq_ok cs f (fun c hc => (hval c hc).1) hcap
  exact ⟨f', h1, readMany_pushback cs f' fs f.buf hbuf hval, hpos⟩

/-- Witness for the amended C1 at `cs = [97, 98]` over the unit `exD`. -/
theorem spec_C1_amended_witness :
    (∀ c ∈ [(97 : Int), 98], 0 ≤ c ∧ c ≠ 92) ∧
    [(97 : Int), 98].length + exD.buf.length ≤ BUFCAP ∧
    ∃ f', unreadSeq [(97 : Int), 98] exD = some f' ∧
      (readMany 1 [(97 : Int), 98].length (f' :: [])).map Prod.fst =
        some [(97 : Int), 98] ∧
      ((∀ c ∈ [(97 : Int), 98], c ≠ 10) →
        f'.line = exD.line ∧ f'.column = exD.column - [(97 : Int), 98].length) :=
  ⟨by decide, by decide, spec_C1_amended [97, 98] exD [] (by decide) (by decide)⟩

/-- Skipping a leading linefeed yields a suffix of the original list. -/
theorem stripLF_suffix (s : List Int) : stripLF s <:+ s := by
  cases s with
  | nil => simp [stripLF]
  | cons c r =>
    simp only [stripLF]
    split
    · exact List.suffix_cons c r
    · exact List.suffix_rfl

/-- Fuel adequacy: with fuel at least the remaining content length plus
two, `readStringAll` computes the closed form `stringOut` (the content
must be genuine characters, i.e. non-negative). -/
theorem readStringAll_eq (fuel : Nat) (f : File)
    (hfuel : f.p.length + 2 ≤ fuel) (hp : ∀ c ∈ f.p, 0 ≤ c) :
    readStringAll fuel f = stringOut f.p f.last := by
  have hne10 : (10 : Int) ≠ EOF := by decide
  induction fuel generalizing f with
  | zero => exact absurd hfuel (by omega)
  | succ fuel ih =>
    rcases hp0 : f.p with _ | ⟨c0, rest⟩
    · by_cases hl : f.last = 10 ∨ f.last = EOF
      · have h1 : readc_string f = (EOF, { f with last := EOF }) := by
          unfold readc_string
          rw [hp0]
          simp [hl]
        simp [readStringAll, h1, stringOut, hl]
      · have h1 : readc_string f = (10, { f with last := (10 : Int) }) := by
          unfold readc_string
          rw [hp0]
          simp [hl]
        obtain ⟨fuel, rfl⟩ : ∃ k, fuel = k + 1 := ⟨fuel - 1, by omega⟩
        have h2 : readc_string { f with last := (10 : Int) } =
            (EOF, { f with last := EOF }) := by
          unfold readc_string
          simp [hp0]
        simp [readStringAll, h1, h2, stringOut, hl, hne10]
    · have hc0 : (0 : Int) ≤ c0 := hp c0 (by rw [hp0]; exact List.mem_cons_self _ _)
      by_cases h0 : c0 = 0
      · subst h0
        by_cases hl : f.last = 10 ∨ f.last = EOF
        · have h1 : readc_string f = (EOF, { f with last := EOF }) := by
            unfold readc_string
            rw [hp0]
            simp [hl]
          simp [readStringAll, h1, stringOut, hl]
        · have h1 : readc_string f = (10, { f with last := (10 : Int) }) := by
            unfold readc_string
            rw [hp0]
            simp [hl]
          obtain ⟨fuel, rfl⟩ : ∃ k, fuel = k + 1 := ⟨fuel - 1, by omega⟩
          have h2 : readc_string { f with last := (10 : Int) } =
              (EOF, { f with last := EOF }) := by
            unfold readc_string
            simp [hp0]
          simp [readStringAll, h1, h2, stringOut, hl, hne10]
      · by_cases h13 : c0 = 13
        · subst h13
          have h1 : readc_string f =
              (10, { f with p := stripLF rest, last := (10 : Int) }) := by
            unfold readc_string
            rw [hp0]
            norm_num
          have hlen : (stripLF rest).length + 2 ≤ fuel := by
            have hle := (stripLF_suffix rest).sublist.length_le
            rw [hp0] at hfuel
            simp only [List.length_cons] at hfuel
            omega
          have hmem : ∀ c ∈ stripLF rest, (0 : Int) ≤ c := fun c hc =>
            hp c (by
              rw [hp0]
              exact List.mem_cons_of_mem _ ((stripLF_suffix rest).sublist.subset hc))
          have ihh := ih { f with p := stripLF rest, last := (10 : Int) }
            (by simpa using hlen) (by simpa using hmem)
          simp [readStringAll, h1, stringOut, ihh, hne10]
        · have h1 : readc_string f = (c0, { f with p := rest, last := c0 }) := by
            unfold readc_string
            rw [hp0]
            simp [h0, h13]
          have hcE : ¬ c0 = EOF := by simp only [EOF]; omega
          have hlen : rest.length + 2 ≤ fuel := by
            rw [hp0] at hfuel
            simp only [List.length_cons] at hfuel
            omega
          have hmem : ∀ c ∈ rest, (0 : Int) ≤ c := fun c hc =>
            hp c (by rw [hp0]; exact List.mem_cons_of_mem _ hc)
          have ihh := ih { f with p := rest, last := c0 }
            (by simpa using hlen) (by simpa using hmem)
          simp [readStringAll, h1, stringOut, ihh, hcE, h0, h13]

/-- Pre-substituting carriage returns never lengthens the string. -/
theorem crlfSubst_length (S : List Int) : (crlfSubst S).length ≤ S.length := by
  suffices H : ∀ (n : Nat) (S : List Int), S.length ≤ n →
      (crlfSubst S).length ≤ S.length from H S.length S le_rfl
  intro n
  induction n with
  | zero =>
    intro S hS
    rw [List.length_eq_zero.mp (Nat.le_zero.mp hS)]
    simp [crlfSubst]
  | succ n ih =>
    intro S hS
    rcases S with _ | ⟨c, rest⟩
    · simp [crlfSubst]
    · by_cases h13 : c = 13
      · subst h13
        rw [show crlfSubst (13 :: rest) = 10 :: crlfSubst (stripLF rest) by
          simp [crlfSubst]]
        have h1 := (stripLF_suffix rest).sublist.length_le
        have h2 := ih (stripLF rest) (by
          simp only [List.length_cons] at hS
          omega)
        simp only [List.length_cons]
        omega
      · rw [show crlfSubst (c :: rest) = c :: crlfSubst rest by
          simp [crlfSubst, h13]]
        have h2 := ih rest (by
          simp only [List.length_cons] at hS
          omega)
        simp only [List.length_cons]
        omega

/-- Pre-substituting carriage returns keeps every character a genuine
(non-negative) character. -/
theorem crlfSubst_nonneg (S : List Int) (hS : ∀ c ∈ S, (0 : Int) ≤ c) :
    ∀ c ∈ crlfSubst S, (0 : Int) ≤ c := by
  suffices H : ∀ (n : Nat) (S : List Int), S.length ≤ n →
      (∀ c ∈ S, (0 : Int) ≤ c) → ∀ c ∈ crlfSubst S, (0 : Int) ≤ c from
    H S.length S le_rfl hS
  intro n
  induction n with
  | zero =>
    intro S hS _
    rw [List.length_eq_zero.mp (Nat.le_zero.mp hS)]
    simp [crlfSubst]
  | succ n ih =>
    intro S hlen hS
    rcases S with _ | ⟨c, rest⟩
    · simp [crlfSubst]
    · by_cases h13 : c = 13
      · subst h13
        rw [show crlfSubst (13 :: rest) = 10 :: crlfSubst (stripLF rest) by
          simp [crlfSubst]]
        intro x hx
        rcases List.mem_cons.mp hx with h | h
        · omega
        · refine ih (stripLF rest) ?_ ?_ x h
          · have := (stripLF_suffix rest).sublist.length_le
            simp only [List.length_cons] at hlen
            omega
          · exact fun y hy =>
              hS y (List.mem_cons_of_mem _ ((stripLF_suffix rest).sublist.subset hy))
      · rw [show crlfSubst (c :: rest) = c :: crlfSubst rest by
          simp [crlfSubst, h13]]
        intro x hx
        rcases List.mem_cons.mp hx with h | h
        · subst h
          exact hS x (List.mem_cons_self _ _)
        · refine ih rest ?_ (fun y hy => hS y (List.mem_cons_of_mem _ hy)) x h
          simp only [List.length_cons] at hlen
          omega

/-- The raw reader's carriage-return normalization produces the very
same character sequence as pre-substituting `\r\n` and lone `\r` by
`\n` and then reading straight. -/
theorem stringOut_crlf (S : List Int) (l : Int) :
    stringOut (crlfSubst S) l = stringOut S l := by
  suffices H : ∀ (n : Nat) (S : List Int) (l : Int), S.length ≤ n →
      stringOut (crlfSubst S) l = stringOut S l from H S.length S l le_rfl
  intro n
  induction n with
  | zero =>
    intro S l hS
    rw [List.length_eq_zero.mp (Nat.le_zero.mp hS)]
    simp [crlfSubst]
  | succ n ih =>
    intro S l hS
    rcases S with _ | ⟨c, rest⟩
    · simp [crlfSubst]
    · by_cases h13 : c = 13
      · subst h13
        have e1 : crlfSubst (13 :: rest) = 10 :: crlfSubst (stripLF rest) := by
          simp [crlfSubst]
        have e2 : stringOut (13 :: rest) l = 10 :: stringOut (stripLF rest) 10 := by
          simp [stringOut]
        have e3 : stringOut (10 :: crlfSubst (stripLF rest)) l =
            10 :: stringOut (crlfSubst (stripLF rest)) 10 := by
          simp [stringOut]
        rw [e1, e3, e2]
        have hlen := (stripLF_suffix rest).sublist.length_le
        rw [ih (stripLF rest) 10 (by
          simp only [List.length_cons] at hS
          omega)]
      · by_cases h0 : c = 0
        · subst h0
          have e1 : crlfSubst (0 :: rest) = 0 :: crlfSubst rest := by
            simp [crlfSubst]
          have e2 : stringOut (0 :: crlfSubst rest) l =
              if l = 10 ∨ l = EOF then [] else [10] := by
            simp [stringOut]
          have e3 : stringOut (0 :: rest) l =
              if l = 10 ∨ l = EOF then [] else [10] := by
            simp [stringOut]
          rw [e1, e2, e3]
        · have e1 : crlfSubst (c :: rest) = c :: crlfSubst rest := by
            simp [crlfSubst, h13]
          have e2 : stringOut (c :: crlfSubst rest) l =
              c :: stringOut (crlfSubst rest) c := by
            simp [stringOut, h0, h13]
          have e3 : stringOut (c :: rest) l = c :: stringOut rest c := by
            simp [stringOut, h0, h13]
          rw [e1, e2, e3]
          rw [ih rest c (by
            simp only [List.length_cons] at hS
            omega)]

/-- C2: for every string `S` (of genuine characters), reading `S` to
exhaustion through a string-backed unit yields exactly the same
character sequence as reading the string obtained from `S` by replacing
every `\r\n` pair and every remaining lone `\r` with `\n`: the unit's
carriage-return normalization equals pre-substitution followed by a
straight read. -/
theorem spec_C2 (S : List Int) (hS : ∀ c ∈ S, (0 : Int) ≤ c) :
    readStringAll (S.length + 2) (make_file_string S false) =
      readStringAll (S.length + 2) (make_file_string (crlfSubst S) false) := by
  have h1 := readStringAll_eq (S.length + 2) (make_file_string S false)
    (by simp [make_file_string]) (by simpa [make_file_string] using hS)
  have h2 := readStringAll_eq (S.length + 2) (make_file_string (crlfSubst S) false)
    (by
      have := crlfSubst_length S
      simp only [make_file_string]
      omega)
    (by simpa [make_file_string] using crlfSubst_nonneg S hS)
  rw [h1, h2]
  exact (stringOut_crlf S 0).symm

/-- Witness for C2 at `S = "a\r\nb\rc"`. -/
theorem spec_C2_witness :
    (∀ c ∈ [(97 : Int), 13, 10, 98, 13, 99], (0 : Int) ≤ c) ∧
    readStringAll ([(97 : Int), 13, 10, 98, 13, 99].length + 2)
        (make_file_string [97, 13, 10, 98, 13, 99] false) =
      readStringAll ([(97 : Int), 13, 10, 98, 13, 99].length + 2)
        (make_file_string (crlfSubst [97, 13, 10, 98, 13, 99]) false) :=
  ⟨by decide, spec_C2 [97, 13, 10, 98, 13, 99] (by decide)⟩

/-- Appending a final newline to a content that does not already end in
one does not change the raw reader's output: the missing newline was
regularized anyway. -/
theorem stringOut_append (S : List Int) (l : Int)
    (hS : ∀ c ∈ S, (0 : Int) ≤ c)
    (hnil : S = [] → ¬(l = 10 ∨ l = EOF))
    (hlast : S.getLast? ≠ some 10) :
    stringOut (S ++ [10]) l = stringOut S l := by
  suffices H : ∀ (n : Nat) (S : List Int) (l : Int), S.length ≤ n →
      (∀ c ∈ S, (0 : Int) ≤ c) → (S = [] → ¬(l = 10 ∨ l = EOF)) →
      S.getLast? ≠ some 10 → stringOut (S ++ [10]) l = stringOut S l from
    H S.length S l le_rfl hS hnil hlast
  intro n
  induction n with
  | zero =>
    intro S l hlen hS hnil hlast
    have h0 := List.length_eq_zero.mp (Nat.le_zero.mp hlen)
    subst h0
    simp [stringOut, hnil rfl]
  | succ n ih =>
    intro S l hlen hS hnil hlast
    rcases S with _ | ⟨c, rest⟩
    · simp [stringOut, hnil rfl]
    · by_cases h0 : c = 0
      · subst h0
        have e1 : stringOut ((0 :: rest) ++ [10]) l =
            if l = 10 ∨ l = EOF then [] else [10] := by
          simp [stringOut]
        have e2 : stringOut (0 :: rest) l =
            if l = 10 ∨ l = EOF then [] else [10] := by
          simp [stringOut]
        rw [e1, e2]
      · by_cases h13 : c = 13
        · subst h13
          rcases rest with _ | ⟨c1, r⟩
          · simp [stringOut, stripLF]
          · have hsplit : stripLF ((c1 :: r) ++ [10]) = stripLF (c1 :: r) ++ [10] := by
              simp only [List.cons_append, stripLF]
              split <;> simp
            have e1 : stringOut ((13 :: (c1 :: r)) ++ [10]) l =
                10 :: stringOut (stripLF (c1 :: r) ++ [10]) 10 := by
              rw [List.cons_append,
                show stringOut (13 :: ((c1 :: r) ++ [10])) l =
                  10 :: stringOut (stripLF ((c1 :: r) ++ [10])) 10 by simp [stringOut],
                hsplit]
            have e2 : stringOut (13 :: (c1 :: r)) l =
                10 :: stringOut (stripLF (c1 :: r)) 10 := by
              simp [stringOut]
            rw [e1, e2]
            by_cases h10 : c1 = 10
            · subst h10
              rcases r with _ | ⟨c2, r2⟩
              · exact absurd (by rfl :
                  (13 :: 10 :: ([] : List Int)).getLast? = some 10) hlast
              · rw [show stripLF (10 :: (c2 :: r2)) = c2 :: r2 by simp [stripLF]]
                refine congrArg (10 :: ·) (ih (c2 :: r2) 10 ?_ ?_ ?_ ?_)
                · simp only [List.length_cons] at hlen ⊢
                  omega
                · exact fun y hy => hS y (by
                    exact List.mem_cons_of_mem _ (List.mem_cons_of_mem _ hy))
                · intro h
                  exact absurd h (List.cons_ne_nil _ _)
                · rw [List.getLast?_cons_cons, List.getLast?_cons_cons] at hlast
                  exact hlast
            · rw [show stripLF (c1 :: r) = c1 :: r by simp [stripLF, h10]]
              refine congrArg (10 :: ·) (ih (c1 :: r) 10 ?_ ?_ ?_ ?_)
              · simp only [List.length_cons] at hlen ⊢
                omega
              · exact fun y hy => hS y (List.mem_cons_of_mem _ hy)
              · intro h
                exact absurd h (List.cons_ne_nil _ _)
              · rw [List.getLast?_cons_cons] at hlast
                exact hlast
        · have e1 : stringOut ((c :: rest) ++ [10]) l =
              c :: stringOut (rest ++ [10]) c := by
            simp [stringOut, h0, h13]
          have e2 : stringOut (c :: rest) l = c :: stringOut rest c := by
            simp [stringOut, h0, h13]
          rw [e1, e2]
          refine congrArg (c :: ·) (ih rest c ?_ ?_ ?_ ?_)
          · simp only [List.length_cons] at hlen
            omega
          · exact fun y hy => hS y (List.mem_cons_of_mem _ hy)
          · intro hr
            subst hr
            intro hor
            rcases hor with h | h
            · exact hlast (by rw [h]; rfl)
            · have hc := hS c (List.mem_cons_self _ _)
              rw [EOF] at h
              omega
          · rcases rest with _ | ⟨c1, r⟩
            · simp
            · rw [List.getLast?_cons_cons] at hlast
              exact hlast

/-- C3: for every string `S` (of genuine characters) that does not end
in a newline, reading `S` to exhaustion through a string-backed unit
yields exactly the same character sequence — the synthetic final newline
included — as reading `S` with a newline appended. -/
theorem spec_C3 (S : List Int) (hS : ∀ c ∈ S, (0 : Int) ≤ c)
    (hlast : S.getLast? ≠ some 10) :
    readStringAll (S.length + 2) (make_file_string S false) =
      readStringAll (S.length + 3) (make_file_string (S ++ [10]) false) := by
  have h1 := readStringAll_eq (S.length + 2) (make_file_string S false)
    (by simp [make_file_string]) (by simpa [make_file_string] using hS)
  have h2 := readStringAll_eq (S.length + 3) (make_file_string (S ++ [10]) false)
    (by simp [make_file_string])
    (by
      simp only [make_file_string]
      intro c hc
      rcases List.mem_append.mp hc with h | h
      · exact hS c h
      · simp only [List.mem_singleton] at h
        omega)
  rw [h1, h2]
  exact (stringOut_append S 0 hS (fun _ => by rw [EOF]; norm_num) hlast).symm

/-- Witness for C3 at `S = "ab"`. -/
theorem spec_C3_witness :
    (∀ c ∈ [(97 : Int), 98], (0 : Int) ≤ c) ∧
    [(97 : Int), 98].getLast? ≠ some 10 ∧
    readStringAll ([(97 : Int), 98].length + 2) (make_file_string [97, 98] false) =
      readStringAll ([(97 : Int), 98].length + 3)
        (make_file_string ([97, 98] ++ [10]) false) :=
  ⟨by decide, by decide, spec_C3 [97, 98] (by decide) (by decide)⟩

/-- A `readc` whose top string-backed unit has an empty pushback buffer
and a plain character (positive, neither backslash nor carriage return)
under the cursor returns that character and advances the cursor by one. -/
theorem readc_plain (f : File) (fs : List File) (c : Int) (rest : List Int)
    (fuel : Nat) (hfile : f.file = none) (hbuf : f.buf = [])
    (hp : f.p = c :: rest) (h0 : 0 < c) (h92 : c ≠ 92) (h13 : c ≠ 13) :
    readc (fuel + 1) (f :: fs) =
      some (c, getPos c { f with p := rest, last := c } :: fs) := by
  have hget : get f = (c, getPos c { f with p := rest, last := c }) := by
    unfold get getRaw readc_string
    rw [hbuf, hfile, hp]
    simp [show ¬ c = 0 by omega, h13]
  simp only [readc, hget]
  have hcE : ¬ (c = EOF) := by rw [EOF]; omega
  simp [hcE, h92]

/-- One-step unfolding of the `readMany` driver. -/
theorem readMany_succ (fuel n : Nat) (st : List File) :
    readMany fuel (n + 1) st =
      match readc fuel st with
      | none => none
      | some (c, st') =>
        match readMany fuel n st' with
        | none => none
        | some (cs, st'') => some (c :: cs, st'') := rfl

/-- Reading a string-backed non-autopop unit whose content is a plain
string followed by a final backslash delivers exactly the plain string
and then `EOF`: the final backslash is spliced away together with the
synthetic end-of-input newline and never delivered. -/
theorem readMany_backslash (S : List Int)
    (h : ∀ c ∈ S, 0 < c ∧ c ≠ 92 ∧ c ≠ 13) :
    ∀ (l line col : Int) (name : String),
      (readMany 4 (S.length + 1) [strUnit (S ++ [92]) name line col l]).map
          Prod.fst
        = some (S ++ [EOF]) := by
  induction S with
  | nil =>
    intro l line col name
    rfl
  | cons c rest ih =>
    intro l line col name
    obtain ⟨hc0, hc92, hc13⟩ := h c (List.mem_cons_self c rest)
    have hstep : readc 4 [strUnit ((c :: rest) ++ [92]) name line col l] =
        some (c, getPos c (strUnit (rest ++ [92]) name line col c) :: []) :=
      readc_plain (strUnit ((c :: rest) ++ [92]) name line col l) [] c
        (rest ++ [92]) 3 rfl rfl rfl hc0 hc92 hc13
    have ihrest := fun l' line' col' =>
      ih (fun x hx => h x (List.mem_cons_of_mem c hx)) l' line' col' name
    by_cases hc10 : c = 10
    · subst hc10
      have hpos : getPos 10 (strUnit (rest ++ [92]) name line col 10) =
          strUnit (rest ++ [92]) name (line + 1) 0 10 := by
        simp [getPos, strUnit]
      obtain ⟨⟨cs', st''⟩, hEq, hfst⟩ :=
        Option.map_eq_some'.mp (ihrest 10 (line + 1) 0)
      simp only at hfst
      subst hfst
      rw [List.length_cons, readMany_succ]
      simp only [hstep, hpos, hEq]
      simp
    · have hpos : getPos c (strUnit (rest ++ [92]) name line col c) =
          strUnit (rest ++ [92]) name line (col + 1) c := by
        simp [getPos, strUnit, hc10]
      obtain ⟨⟨cs', st''⟩, hEq, hfst⟩ :=
        Option.map_eq_some'.mp (ihrest c line (col + 1))
      simp only at hfst
      subst hfst
      rw [List.length_cons, readMany_succ]
      simp only [hstep, hpos, hEq]
      simp

/-- C10: for a string-backed non-autopop unit whose content is a plain
string `S` (positive characters, no backslash, no carriage return)
followed by a trailing lone backslash, `read()` delivers exactly the
characters of `S` and then `EOF`: the synthetic end-of-input newline is
spliced away together with the trailing backslash, which is never
delivered to the caller. -/
theorem spec_C10 (S : List Int) (h : ∀ c ∈ S, 0 < c ∧ c ≠ 92 ∧ c ≠ 13) :
    (readMany 4 (S.length + 1) (push_stream_string (S ++ [92]) [])).map
        Prod.fst
      = some (S ++ [EOF]) :=
  readMany_backslash S h 0 1 0 ""

/-- Witness for C10 at `S = "a"` (content `"a\\"`). -/
theorem spec_C10_witness :
    (∀ c ∈ [(97 : Int)], 0 < c ∧ c ≠ 92 ∧ c ≠ 13) ∧
    (readMany 4 ([(97 : Int)].length + 1)
        (push_stream_string ([97] ++ [92]) [])).map Prod.fst
      = some ([97] ++ [EOF]) :=
  ⟨by decide, spec_C10 [97] (by decide)⟩

end CFile
